import Mathlib

/-
Verification of the hybrid RSA + AES-256-CBC submission-encryption subsystem:
`organizer_tools/encryption/encrypt_submission.py`,
`organizer_tools/encryption/generate_keys.py` and
`competition/decrypt_submission.py`.

Byte strings are shallowly embedded as `List Nat` (each entry one byte;
boundedness below 256 is a hypothesis where it matters).  The AES block
permutation and the RSA-OAEP key wrap are external library primitives
(`cryptography.hazmat`); they enter the model as abstract parameters with
the interface the library provides, while everything the repository itself
does — PKCS7 padding, CBC chaining over the block primitive, the binary
envelope framing, and the orchestration and filesystem effects of the three
`main` programs — is embedded concretely from the source.
-/

namespace GnnChallenge

/-- Byte strings: lists of naturals, one entry per byte. -/
abbrev Bytes := List Nat

/-- Big-endian 4-byte encoding of a natural number, as produced by
`len(enc_key).to_bytes(4, byteorder="big")` in `encrypt_submission.py`. -/
def toBytes4BE (n : Nat) : Bytes :=
  [n / 16777216 % 256, n / 65536 % 256, n / 256 % 256, n % 256]

/-- Big-endian interpretation of a byte string, as computed by
`int.from_bytes(data[:4], byteorder="big")` in `decrypt_submission.py`. -/
def fromBytesBE (b : Bytes) : Nat :=
  b.foldl (fun acc x => acc * 256 + x) 0

/-- Failure modes of the subsystem.  The Python scripts raise
`FileNotFoundError`, `RuntimeError` (missing environment variable),
`ValueError` (framing, cipher and padding violations); the constructors
below distinguish which check raised, following the spec's taxonomy. -/
inductive DecErr where
  | fileNotFound
  | configError
  | keyLoadError
  | malformedEnvelope
  | keyUnwrapError
  | decryptionError
  | paddingError
deriving DecidableEq

/-- Envelope serialization, from `encrypt_submission.py` `main`:
`f.write(key_len_bytes); f.write(enc_key); f.write(iv); f.write(ciphertext)`
with `key_len_bytes = len(enc_key).to_bytes(4, "big")`.  The source performs
no validation here. -/
def serializeEnvelope (encKey iv ciphertext : Bytes) : Bytes :=
  toBytes4BE encKey.length ++ encKey ++ iv ++ ciphertext

/-- Envelope deserialization, from `decrypt_submission.py` `main` lines 75-88:
the 20-byte floor check, the 4-byte big-endian key length, the three slices,
and the combined format check. -/
def deserializeEnvelope (data : Bytes) : Except DecErr (Bytes × Bytes × Bytes) :=
  if data.length < 4 + 16 then
    .error .malformedEnvelope
  else
    let keyLen := fromBytesBE (data.take 4)
    let encKey := (data.drop 4).take keyLen
    let iv := (data.drop (4 + keyLen)).take 16
    let ciphertext := data.drop (4 + keyLen + 16)
    if encKey.length ≠ keyLen ∨ iv.length ≠ 16 ∨ ciphertext.length = 0 then
      .error .malformedEnvelope
    else
      .ok (encKey, iv, ciphertext)

/-- PKCS7 padding to the 16-byte AES block, the semantics of
`sym_padding.PKCS7(128).padder()` used by `encrypt_aes_cbc`: append
`16 - len % 16` bytes (a full block when already aligned), each holding the
pad count. -/
def pkcs7Pad (p : Bytes) : Bytes :=
  p ++ List.replicate (16 - p.length % 16) (16 - p.length % 16)

/-- PKCS7 unpadding, the semantics of `sym_padding.PKCS7(128).unpadder()`
used by `decrypt_aes_cbc`: the input must be a nonempty multiple of the
block size, the final byte `p` must satisfy `1 ≤ p ≤ 16`, and the last `p`
bytes must all equal `p`; otherwise the library raises (`PaddingError`). -/
def pkcs7Unpad (d : Bytes) : Except DecErr Bytes :=
  match d.getLast? with
  | none => .error .paddingError
  | some p =>
    if d.length % 16 = 0 ∧ 1 ≤ p ∧ p ≤ 16 ∧
        d.drop (d.length - p) = List.replicate p p then
      .ok (d.take (d.length - p))
    else
      .error .paddingError

/-- Pointwise xor of two byte strings (truncating to the shorter). -/
def xorBytes (a b : Bytes) : Bytes :=
  List.zipWith (fun x y => x ^^^ y) a b

/-- Fuel-driven splitter behind `chunks`: peel 16-byte blocks while fuel
lasts.  The fuel only bounds the recursion depth; `chunks` always supplies
enough. -/
def chunksF : Nat → Bytes → List Bytes
  | _, [] => []
  | 0, _ => []
  | fuel + 1, l => l.take 16 :: chunksF fuel (l.drop 16)

/-- Split a byte string into its consecutive 16-byte blocks (the last block
shorter when the length is not a multiple of 16). -/
def chunks (l : Bytes) : List Bytes :=
  chunksF l.length l

/-- CBC encryption over an abstract block permutation `E`:
each ciphertext block is `E` of the plaintext block xored with the previous
ciphertext block, seeded with the IV (the `modes.CBC` chaining). -/
def cbcEncBlocks (E : Bytes → Bytes) (prev : Bytes) : List Bytes → List Bytes
  | [] => []
  | b :: rest =>
    E (xorBytes prev b) :: cbcEncBlocks E (E (xorBytes prev b)) rest

/-- CBC decryption over an abstract inverse block permutation `D`:
each plaintext block is the previous ciphertext block xored with `D` of the
current ciphertext block. -/
def cbcDecBlocks (D : Bytes → Bytes) (prev : Bytes) : List Bytes → List Bytes
  | [] => []
  | c :: rest => xorBytes prev (D c) :: cbcDecBlocks D c rest

/-- `encrypt_aes_cbc(plaintext, key, iv)` from `encrypt_submission.py`:
PKCS7-pad, then CBC-encrypt with the AES block permutation `E key`. -/
def encrypt_aes_cbc (E : Bytes → Bytes → Bytes) (plaintext key iv : Bytes) : Bytes :=
  (cbcEncBlocks (E key) iv (chunks (pkcs7Pad plaintext))).flatten

/-- `decrypt_aes_cbc(ciphertext, key, iv)` from `decrypt_submission.py`:
CBC-decrypt with the AES inverse permutation `D key`, then strip PKCS7
padding.  The cipher's `finalize` raises when the ciphertext is not
block-aligned, modelled by the length check. -/
def decrypt_aes_cbc (D : Bytes → Bytes → Bytes) (ciphertext key iv : Bytes) :
    Except DecErr Bytes :=
  if ciphertext.length % 16 = 0 then
    pkcs7Unpad ((cbcDecBlocks (D key) iv (chunks ciphertext)).flatten)
  else
    .error .decryptionError

/-- The pure encryption pipeline of `encrypt_submission.py` `main` after the
file reads: CBC-encrypt the plaintext under the fresh session key and IV,
wrap the session key under the public key (the RSA-OAEP primitive `wrap`),
and serialize the envelope. -/
def encryptPipeline {K : Type} (wrap : K → Bytes → Bytes)
    (E : Bytes → Bytes → Bytes) (pub : K) (plaintext aesKey iv : Bytes) : Bytes :=
  serializeEnvelope (wrap pub aesKey) iv (encrypt_aes_cbc E plaintext aesKey iv)

/-- The pure decryption pipeline of `decrypt_submission.py` `main` after the
file read: deserialize, unwrap the session key with the private key (the
RSA-OAEP primitive `unwrap`, which can fail), CBC-decrypt and unpad. -/
def decryptPipeline {K : Type} (unwrap : K → Bytes → Except DecErr Bytes)
    (D : Bytes → Bytes → Bytes) (priv : K) (data : Bytes) : Except DecErr Bytes :=
  match deserializeEnvelope data with
  | .error e => .error e
  | .ok (encKey, iv, ciphertext) =>
    match unwrap priv encKey with
    | .error e => .error e
    | .ok aesKey => decrypt_aes_cbc D ciphertext aesKey iv

/-- Filesystem and console effects performed by the `main` programs, in
order.  `mkdirParents p` is `Path(p).mkdir(parents=True, exist_ok=True)`. -/
inductive FsOp where
  | readBytes (path : String)
  | mkdirParents (path : String)
  | writeBytes (path : String) (data : Bytes)
  | printLine (text : String)
deriving DecidableEq

/-- Whether an effect is a file write. -/
def FsOp.isWrite : FsOp → Bool
  | .writeBytes _ _ => true
  | _ => false

/-- Whether an effect is a directory creation. -/
def FsOp.isMkdir : FsOp → Bool
  | .mkdirParents _ => true
  | _ => false

/-- Whether an effect is a line printed to standard output. -/
def FsOp.isPrint : FsOp → Bool
  | .printLine _ => true
  | _ => false

/-- `parentEnsured out parent tr seen` holds when every write to `out` in
the trace `tr` is preceded by a `mkdirParents parent` (or `seen` records
one already performed). -/
def parentEnsured (out parent : String) : List FsOp → Bool → Bool
  | [], _ => true
  | op :: rest, seen =>
    match op with
    | .mkdirParents p => parentEnsured out parent rest (seen || (p == parent))
    | .writeBytes p _ => (!(p == out) || seen) && parentEnsured out parent rest seen
    | _ => parentEnsured out parent rest seen

/-- Process environment of one `decrypt_submission.py` run: the
`SUBMISSION_PRIVATE_KEY` variable, whether the `--input` file exists, and
its contents. -/
structure DecryptEnv where
  envVar : Option String
  inputExists : Bool
  inputData : Bytes
deriving DecidableEq

/-- `load_private_key_from_env` from `decrypt_submission.py`: a missing or
empty variable (`if not pem_str`) is a fatal configuration error; otherwise
the PEM text is handed to the library loader `loadPriv` (which may itself
fail on malformed key material). -/
def load_private_key_from_env {K : Type} (loadPriv : String → Except DecErr K)
    (envVar : Option String) : Except DecErr K :=
  match envVar with
  | none => .error .configError
  | some s => if s = "" then .error .configError else loadPriv s

/-- `main` of `decrypt_submission.py` as a result plus effect trace:
input-existence check, private-key load from the environment, read of the
envelope bytes, framing checks, RSA-OAEP key unwrap, AES-CBC decryption and
unpadding, then `out_path.parent.mkdir(parents=True, exist_ok=True)`, the
output write and the success message. -/
def decryptMain {K : Type} (loadPriv : String → Except DecErr K)
    (unwrap : K → Bytes → Except DecErr Bytes) (D : Bytes → Bytes → Bytes)
    (env : DecryptEnv) (inputPath outputPath outputParent : String) :
    Except DecErr Unit × List FsOp :=
  if env.inputExists = false then
    (.error .fileNotFound, [])
  else
    match load_private_key_from_env loadPriv env.envVar with
    | .error e => (.error e, [])
    | .ok priv =>
      match deserializeEnvelope env.inputData with
      | .error e => (.error e, [FsOp.readBytes inputPath])
      | .ok (encKey, iv, ciphertext) =>
        match unwrap priv encKey with
        | .error e => (.error e, [FsOp.readBytes inputPath])
        | .ok aesKey =>
          match decrypt_aes_cbc D ciphertext aesKey iv with
          | .error e => (.error e, [FsOp.readBytes inputPath])
          | .ok plaintext =>
            (.ok (), [FsOp.readBytes inputPath,
                      FsOp.mkdirParents outputParent,
                      FsOp.writeBytes outputPath plaintext,
                      FsOp.printLine outputPath])

/-- Process environment of one `encrypt_submission.py` run: whether the
predictions file and the public-key file exist, their contents, and the
fresh random session key and IV drawn from `os.urandom`. -/
structure EncryptEnv where
  predictionsExists : Bool
  publicKeyExists : Bool
  predictionsData : Bytes
  publicKeyData : Bytes
  aesKey : Bytes
  iv : Bytes
deriving DecidableEq

/-- `main` of `encrypt_submission.py` as a result plus effect trace:
existence checks, read of the plaintext, AES-CBC encryption, read and load
of the public key, RSA-OAEP key wrap, then the envelope write (the source
opens the output path directly — no directory creation) and two messages. -/
def encryptMain {K : Type} (loadPub : Bytes → Except DecErr K)
    (wrap : K → Bytes → Bytes) (E : Bytes → Bytes → Bytes)
    (env : EncryptEnv) (predPath pubKeyPath outputPath : String) :
    Except DecErr Unit × List FsOp :=
  if env.predictionsExists = false then
    (.error .fileNotFound, [])
  else if env.publicKeyExists = false then
    (.error .fileNotFound, [])
  else
    let ciphertext := encrypt_aes_cbc E env.predictionsData env.aesKey env.iv
    match loadPub env.publicKeyData with
    | .error e => (.error e, [FsOp.readBytes predPath, FsOp.readBytes pubKeyPath])
    | .ok pub =>
      (.ok (), [FsOp.readBytes predPath,
                FsOp.readBytes pubKeyPath,
                FsOp.writeBytes outputPath
                  (serializeEnvelope (wrap pub env.aesKey) env.iv ciphertext),
                FsOp.printLine outputPath,
                FsOp.printLine pubKeyPath])

/-- Fixed path of the private-key file written by `generate_keys.py`. -/
def privateKeyPath : String := "organizer_tools/encryption/private_key.pem"

/-- Fixed path of the public-key file written by `generate_keys.py`. -/
def publicKeyPath : String := "competition/competition_public_key.pem"

/-- Fixed directory holding the private key. -/
def encryptionDirPath : String := "organizer_tools/encryption"

/-- Fixed directory holding the public key. -/
def competitionDirPath : String := "competition"

/-- `main` of `generate_keys.py` as an effect trace, parameterized by the
serialized key material of the freshly generated pair: create the two
directories, write the private and the public PEM files, and print the
banner — whose lines mention only the two fixed paths, never key bytes. -/
def generateKeysMain (privatePem publicPem : Bytes) : List FsOp :=
  [FsOp.mkdirParents encryptionDirPath,
   FsOp.writeBytes privateKeyPath privatePem,
   FsOp.mkdirParents competitionDirPath,
   FsOp.writeBytes publicKeyPath publicPem,
   FsOp.printLine privateKeyPath,
   FsOp.printLine publicKeyPath]

/-! ### Framing helper lemmas -/

theorem length_toBytes4BE (n : Nat) : (toBytes4BE n).length = 4 := rfl

theorem fromBytesBE_toBytes4BE (n : Nat) (h : n < 4294967296) :
    fromBytesBE (toBytes4BE n) = n := by
  simp only [toBytes4BE, fromBytesBE, List.foldl_cons, List.foldl_nil]
  omega

theorem toBytes4BE_fromBytesBE (l : Bytes) (h4 : l.length = 4)
    (hb : ∀ x ∈ l, x < 256) : toBytes4BE (fromBytesBE l) = l := by
  rcases l with _ | ⟨a, l⟩; · simp at h4
  rcases l with _ | ⟨b, l⟩; · simp at h4
  rcases l with _ | ⟨c, l⟩; · simp at h4
  rcases l with _ | ⟨d, l⟩; · simp at h4
  have hl : l = [] := by
    simp only [List.length_cons] at h4
    exact List.length_eq_zero.mp (by omega)
  subst hl
  have ha : a < 256 := hb a (by simp)
  have hbb : b < 256 := hb b (by simp)
  have hc : c < 256 := hb c (by simp)
  have hd : d < 256 := hb d (by simp)
  simp only [toBytes4BE, fromBytesBE, List.foldl_cons, List.foldl_nil, List.cons.injEq,
    and_true]
  omega

theorem length_serializeEnvelope (k iv c : Bytes) :
    (serializeEnvelope k iv c).length = 4 + k.length + iv.length + c.length := by
  simp only [serializeEnvelope, List.length_append, length_toBytes4BE]

theorem serializeEnvelope_assoc (k iv c : Bytes) :
    serializeEnvelope k iv c = toBytes4BE k.length ++ (k ++ (iv ++ c)) := by
  simp [serializeEnvelope, List.append_assoc]

theorem deserialize_serialize (k iv c : Bytes) (hk : k.length < 4294967296)
    (hiv : iv.length = 16) (hc : c ≠ []) :
    deserializeEnvelope (serializeEnvelope k iv c) = .ok (k, iv, c) := by
  have hc1 : 0 < c.length := List.length_pos.mpr hc
  have hk4 : (toBytes4BE k.length).length = 4 := rfl
  rw [serializeEnvelope_assoc]
  unfold deserializeEnvelope
  rw [if_neg (by simp only [List.length_append, length_toBytes4BE]; omega)]
  simp only [List.take_left' hk4, List.drop_left' hk4, fromBytesBE_toBytes4BE _ hk]
  have hdrop2 : (toBytes4BE k.length ++ (k ++ (iv ++ c))).drop (4 + k.length) = iv ++ c := by
    rw [← List.drop_drop, List.drop_left' hk4, List.drop_left]
  have hdrop3 :
      (toBytes4BE k.length ++ (k ++ (iv ++ c))).drop (4 + k.length + 16) = c := by
    rw [← List.drop_drop, hdrop2, List.drop_left' hiv]
  simp only [hdrop2, hdrop3, List.take_left, List.take_left' hiv]
  rw [if_neg (by push_neg; exact ⟨rfl, hiv, by omega⟩)]

theorem serialize_deserialize (e k iv c : Bytes) (hb : ∀ x ∈ e, x < 256)
    (h : deserializeEnvelope e = .ok (k, iv, c)) :
    serializeEnvelope k iv c = e := by
  unfold deserializeEnvelope at h
  by_cases h20 : e.length < 4 + 16
  · rw [if_pos h20] at h; exact absurd h (by simp)
  rw [if_neg h20] at h
  by_cases hcond : ((e.drop 4).take (fromBytesBE (e.take 4))).length ≠ fromBytesBE (e.take 4) ∨
      ((e.drop (4 + fromBytesBE (e.take 4))).take 16).length ≠ 16 ∨
      (e.drop (4 + fromBytesBE (e.take 4) + 16)).length = 0
  · rw [if_pos hcond] at h; exact absurd h (by simp)
  rw [if_neg hcond] at h
  push_neg at hcond
  obtain ⟨hek, hiv, hct⟩ := hcond
  have hinj := h
  simp only [Except.ok.injEq, Prod.mk.injEq] at hinj
  obtain ⟨hkeq, hiveq, hceq⟩ := hinj
  subst hkeq; subst hiveq; subst hceq
  unfold serializeEnvelope
  rw [hek]
  have htk4 : (e.take 4).length = 4 := by
    rw [List.length_take]; omega
  rw [toBytes4BE_fromBytesBE (e.take 4) htk4 (fun x hx => hb x (List.take_subset 4 e hx))]
  rw [List.append_assoc, List.append_assoc]
  have hstep3 : e.drop (4 + fromBytesBE (e.take 4) + 16) =
      (e.drop (4 + fromBytesBE (e.take 4))).drop 16 := by
    rw [List.drop_drop]
  have hstep2 : (e.drop 4).drop (fromBytesBE (e.take 4)) =
      e.drop (4 + fromBytesBE (e.take 4)) := by
    rw [List.drop_drop]
  rw [hstep3, List.take_append_drop, ← hstep2, List.take_append_drop,
    List.take_append_drop]

/-! ### Padding helper lemmas -/

theorem length_pkcs7Pad (p : Bytes) :
    (pkcs7Pad p).length = p.length + (16 - p.length % 16) := by
  simp [pkcs7Pad]

theorem pkcs7Pad_length_mod (p : Bytes) : (pkcs7Pad p).length % 16 = 0 := by
  rw [length_pkcs7Pad]; omega

theorem pkcs7Pad_ne_nil (p : Bytes) : pkcs7Pad p ≠ [] := by
  intro h
  have := congrArg List.length h
  rw [length_pkcs7Pad] at this
  simp at this
  omega

theorem pkcs7Unpad_eq (d : Bytes) (p : Nat) (hg : d.getLast? = some p) :
    pkcs7Unpad d =
      if d.length % 16 = 0 ∧ 1 ≤ p ∧ p ≤ 16 ∧
          d.drop (d.length - p) = List.replicate p p then
        .ok (d.take (d.length - p))
      else .error .paddingError := by
  unfold pkcs7Unpad
  rw [hg]

theorem pkcs7Unpad_pkcs7Pad (p : Bytes) : pkcs7Unpad (pkcs7Pad p) = .ok p := by
  have hlt : p.length % 16 < 16 := Nat.mod_lt _ (by decide)
  obtain ⟨q, hq⟩ : ∃ q, 16 - p.length % 16 = q + 1 := ⟨15 - p.length % 16, by omega⟩
  have hsplit : pkcs7Pad p = (p ++ List.replicate q (q + 1)) ++ [q + 1] := by
    rw [pkcs7Pad, hq, List.replicate_succ', ← List.append_assoc]
  have hlen : (pkcs7Pad p).length = p.length + (q + 1) := by
    rw [length_pkcs7Pad, hq]
  have hsub : (pkcs7Pad p).length - (q + 1) = p.length := by omega
  have hg : (pkcs7Pad p).getLast? = some (q + 1) := by
    rw [hsplit]; exact List.getLast?_concat _
  rw [pkcs7Unpad_eq (pkcs7Pad p) (q + 1) hg]
  rw [if_pos]
  · rw [hsub, hsplit, List.append_assoc, List.take_left]
  · refine ⟨pkcs7Pad_length_mod p, by omega, by omega, ?_⟩
    rw [hsub, hsplit, List.append_assoc, List.drop_left]
    rw [← List.replicate_succ']

/-! ### CBC helper lemmas -/

theorem length_xorBytes (a b : Bytes) : (xorBytes a b).length = min a.length b.length := by
  simp [xorBytes]

theorem xorBytes_xorBytes (a b : Bytes) (h : b.length ≤ a.length) :
    xorBytes a (xorBytes a b) = b := by
  induction b generalizing a with
  | nil => simp [xorBytes]
  | cons y ys ih =>
    cases a with
    | nil => simp at h
    | cons x xs =>
      simp only [xorBytes, List.zipWith_cons_cons, Nat.xor_cancel_left, List.cons.injEq,
        true_and]
      exact ih xs (by simp only [List.length_cons] at h; omega)

theorem chunksF_fuel (f₁ f₂ : Nat) (l : Bytes) (h₁ : l.length ≤ f₁)
    (h₂ : l.length ≤ f₂) : chunksF f₁ l = chunksF f₂ l := by
  induction f₁ generalizing f₂ l with
  | zero =>
    have hl : l = [] := List.length_eq_zero.mp (by omega)
    subst hl
    cases f₂ <;> rfl
  | succ g₁ ih =>
    cases l with
    | nil => cases f₂ <;> rfl
    | cons x xs =>
      cases f₂ with
      | zero => simp at h₂
      | succ g₂ =>
        simp only [chunksF, List.cons.injEq, true_and]
        refine ih g₂ ((x :: xs).drop 16) ?_ ?_ <;>
          simp only [List.length_drop, List.length_cons] at * <;> omega

theorem chunks_nil : chunks [] = [] := rfl

theorem chunks_ne (l : Bytes) (h : l ≠ []) :
    chunks l = l.take 16 :: chunks (l.drop 16) := by
  have hpos : 0 < l.length := List.length_pos.mpr h
  obtain ⟨g, hg⟩ : ∃ g, l.length = g + 1 := ⟨l.length - 1, by omega⟩
  cases l with
  | nil => exact absurd rfl h
  | cons x xs =>
    show chunksF (x :: xs).length (x :: xs) = _
    rw [hg]
    simp only [chunksF, List.cons.injEq, true_and]
    exact chunksF_fuel g ((x :: xs).drop 16).length ((x :: xs).drop 16)
      (by simp only [List.length_drop, List.length_cons] at *; omega) (le_refl _)

theorem chunks_append16 (b rest : Bytes) (hb : b.length = 16) :
    chunks (b ++ rest) = b :: chunks rest := by
  have hnb : b ≠ [] := by
    intro h0; subst h0; simp at hb
  rw [chunks_ne (b ++ rest) (List.append_ne_nil_of_left_ne_nil hnb rest)]
  rw [List.take_left' hb, List.drop_left' hb]

theorem flatten_chunks_aux (n : Nat) : ∀ l : Bytes, l.length ≤ n →
    (chunks l).flatten = l := by
  induction n with
  | zero =>
    intro l h
    have hl : l = [] := List.length_eq_zero.mp (by omega)
    subst hl; rfl
  | succ n ih =>
    intro l h
    by_cases hl : l = []
    · subst hl; rfl
    · have hpos : 0 < l.length := List.length_pos.mpr hl
      rw [chunks_ne l hl, List.flatten_cons,
        ih (l.drop 16) (by rw [List.length_drop]; omega), List.take_append_drop]

theorem flatten_chunks (l : Bytes) : (chunks l).flatten = l :=
  flatten_chunks_aux l.length l (le_refl _)

theorem mem_chunks_length_aux (n : Nat) : ∀ l : Bytes, l.length ≤ n →
    l.length % 16 = 0 → ∀ b ∈ chunks l, b.length = 16 := by
  induction n with
  | zero =>
    intro l h _
    have hl : l = [] := List.length_eq_zero.mp (by omega)
    subst hl
    intro b hb; simp [chunks_nil] at hb
  | succ n ih =>
    intro l h hmod
    by_cases hl : l = []
    · subst hl; intro b hb; simp [chunks_nil] at hb
    · have hpos : 0 < l.length := List.length_pos.mpr hl
      have hlen : 16 ≤ l.length := by omega
      rw [chunks_ne l hl]
      intro b hb
      rcases List.mem_cons.mp hb with h1 | h2
      · subst h1; rw [List.length_take]; omega
      · exact ih (l.drop 16) (by rw [List.length_drop]; omega)
          (by rw [List.length_drop]; omega) b h2

theorem mem_chunks_length (l : Bytes) (hl : l.length % 16 = 0) :
    ∀ b ∈ chunks l, b.length = 16 :=
  mem_chunks_length_aux l.length l (le_refl _) hl

theorem chunks_flatten (bs : List Bytes) (h : ∀ b ∈ bs, b.length = 16) :
    chunks bs.flatten = bs := by
  induction bs with
  | nil => rw [List.flatten_nil, chunks_nil]
  | cons b bs ih =>
    rw [List.flatten_cons, chunks_append16 b _ (h b (by simp))]
    rw [ih (fun x hx => h x (by simp [hx]))]

theorem length_flatten_all16 (bs : List Bytes) (h : ∀ b ∈ bs, b.length = 16) :
    bs.flatten.length = 16 * bs.length := by
  induction bs with
  | nil => simp
  | cons b bs ih =>
    rw [List.flatten_cons, List.length_append, h b (by simp),
      ih (fun x hx => h x (by simp [hx]))]
    simp only [List.length_cons]
    omega

theorem length_cbcEncBlocks (E : Bytes → Bytes) (prev : Bytes) (bs : List Bytes) :
    (cbcEncBlocks E prev bs).length = bs.length := by
  induction bs generalizing prev with
  | nil => rfl
  | cons b bs ih => simp only [cbcEncBlocks, List.length_cons, ih]

theorem mem_cbcEncBlocks_length (E : Bytes → Bytes)
    (hE : ∀ b, b.length = 16 → (E b).length = 16) (bs : List Bytes) (prev : Bytes)
    (hprev : prev.length = 16) (hall : ∀ b ∈ bs, b.length = 16) :
    ∀ c ∈ cbcEncBlocks E prev bs, c.length = 16 := by
  induction bs generalizing prev with
  | nil => intro c hc; simp [cbcEncBlocks] at hc
  | cons b bs ih =>
    intro c hc
    have hx : (xorBytes prev b).length = 16 := by
      rw [length_xorBytes, hprev, hall b (by simp)]
      simp
    rcases List.mem_cons.mp hc with h1 | h2
    · subst h1; exact hE _ hx
    · exact ih (E (xorBytes prev b)) (hE _ hx) (fun x hx' => hall x (by simp [hx'])) c h2

theorem cbcDecBlocks_cbcEncBlocks (E D : Bytes → Bytes)
    (hED : ∀ b, b.length = 16 → D (E b) = b)
    (hE : ∀ b, b.length = 16 → (E b).length = 16) (bs : List Bytes) (prev : Bytes)
    (hprev : prev.length = 16) (hall : ∀ b ∈ bs, b.length = 16) :
    cbcDecBlocks D prev (cbcEncBlocks E prev bs) = bs := by
  induction bs generalizing prev with
  | nil => rfl
  | cons b bs ih =>
    have hb16 : b.length = 16 := hall b (by simp)
    have hx : (xorBytes prev b).length = 16 := by
      rw [length_xorBytes, hprev, hb16]
      simp
    simp only [cbcEncBlocks, cbcDecBlocks, List.cons.injEq]
    constructor
    · rw [hED _ hx, xorBytes_xorBytes prev b (by omega)]
    · exact ih (E (xorBytes prev b)) (hE _ hx) (fun x hx' => hall x (by simp [hx']))

/-! ### AES-CBC round trip and length -/

theorem length_encrypt_aes_cbc (E : Bytes → Bytes → Bytes) (plaintext key iv : Bytes)
    (hiv : iv.length = 16) (hE : ∀ b, b.length = 16 → (E key b).length = 16) :
    (encrypt_aes_cbc E plaintext key iv).length = (pkcs7Pad plaintext).length := by
  have hall := mem_chunks_length (pkcs7Pad plaintext) (pkcs7Pad_length_mod plaintext)
  have hct := mem_cbcEncBlocks_length (E key) hE (chunks (pkcs7Pad plaintext)) iv hiv hall
  unfold encrypt_aes_cbc
  rw [length_flatten_all16 _ hct, length_cbcEncBlocks]
  rw [← flatten_chunks (pkcs7Pad plaintext), length_flatten_all16 _ hall,
    chunks_flatten _ hall]

theorem decrypt_encrypt_aes_cbc (E D : Bytes → Bytes → Bytes) (plaintext key iv : Bytes)
    (hiv : iv.length = 16) (hE : ∀ b, b.length = 16 → (E key b).length = 16)
    (hED : ∀ b, b.length = 16 → D key (E key b) = b) :
    decrypt_aes_cbc D (encrypt_aes_cbc E plaintext key iv) key iv = .ok plaintext := by
  have hall := mem_chunks_length (pkcs7Pad plaintext) (pkcs7Pad_length_mod plaintext)
  have hct := mem_cbcEncBlocks_length (E key) hE (chunks (pkcs7Pad plaintext)) iv hiv hall
  have hctmod : (encrypt_aes_cbc E plaintext key iv).length % 16 = 0 := by
    rw [length_encrypt_aes_cbc E plaintext key iv hiv hE]
    exact pkcs7Pad_length_mod plaintext
  unfold decrypt_aes_cbc
  rw [if_pos hctmod]
  unfold encrypt_aes_cbc
  rw [chunks_flatten _ hct,
    cbcDecBlocks_cbcEncBlocks (E key) (D key) hED hE _ iv hiv hall,
    flatten_chunks]
  exact pkcs7Unpad_pkcs7Pad plaintext

theorem encrypt_aes_cbc_ne_nil (E : Bytes → Bytes → Bytes) (plaintext key iv : Bytes)
    (hiv : iv.length = 16) (hE : ∀ b, b.length = 16 → (E key b).length = 16) :
    encrypt_aes_cbc E plaintext key iv ≠ [] := by
  intro h
  have := congrArg List.length h
  rw [length_encrypt_aes_cbc E plaintext key iv hiv hE, length_pkcs7Pad] at this
  simp at this
  omega

/-! ### Claim theorems -/

deriving instance DecidableEq for Except

/-- C1: for every plaintext byte sequence P (including the empty sequence)
and every matching RSA-2048 keypair, decrypting the envelope produced by
encrypting P under the public key, using the private key, returns exactly
the original bytes P.  The AES block permutation `E`/`D` and the RSA-OAEP
wrap/unwrap are the external library primitives, abstracted with exactly the
interface the library guarantees: the block permutation preserves 16-byte
blocks and is inverted by its decryption direction, and unwrapping under the
matching private key recovers the wrapped session key. -/
theorem c1_encrypt_decrypt_round_trip {K : Type}
    (wrap : K → Bytes → Bytes) (unwrap : K → Bytes → Except DecErr Bytes)
    (E D : Bytes → Bytes → Bytes) (pub priv : K) (P aesKey iv : Bytes)
    (hiv : iv.length = 16)
    (hE : ∀ b, b.length = 16 → (E aesKey b).length = 16)
    (hED : ∀ b, b.length = 16 → D aesKey (E aesKey b) = b)
    (hwl : (wrap pub aesKey).length < 4294967296)
    (hu : unwrap priv (wrap pub aesKey) = .ok aesKey) :
    decryptPipeline unwrap D priv (encryptPipeline wrap E pub P aesKey iv) =
      .ok P := by
  unfold encryptPipeline decryptPipeline
  rw [deserialize_serialize _ _ _ hwl hiv (encrypt_aes_cbc_ne_nil E P aesKey iv hiv hE)]
  simp only [hu]
  exact decrypt_encrypt_aes_cbc E D P aesKey iv hiv hE hED

/-- C1 witness: the round trip evaluated at the one-byte plaintext `[9]` with
the identity block permutation and identity key wrap, a fresh 32-byte session
key and a 16-byte iv. -/
theorem c1_encrypt_decrypt_round_trip_witness :
    decryptPipeline (fun (_ : Unit) k => Except.ok k) (fun _ b => b) ()
      (encryptPipeline (fun (_ : Unit) k => k) (fun _ b => b) () [9]
        (List.replicate 32 0) (List.replicate 16 0)) = Except.ok [9] :=
  c1_encrypt_decrypt_round_trip (fun _ k => k) (fun _ k => Except.ok k)
    (fun _ b => b) (fun _ b => b) () () [9] (List.replicate 32 0)
    (List.replicate 16 0) (by decide) (fun _ h => h) (fun _ _ => rfl) (by decide) rfl

/-- C2: the envelope codec round trip: serializing any valid triple and
deserializing recovers it exactly, and any envelope the parser accepts
re-serializes to the identical byte string. -/
theorem c2_codec_round_trip (k iv c e kk ivv cc : Bytes)
    (hk : k.length < 4294967296) (hiv : iv.length = 16) (hc : c ≠ [])
    (hbytes : ∀ x ∈ e, x < 256)
    (hacc : deserializeEnvelope e = .ok (kk, ivv, cc)) :
    deserializeEnvelope (serializeEnvelope k iv c) = .ok (k, iv, c) ∧
      serializeEnvelope kk ivv cc = e :=
  ⟨deserialize_serialize k iv c hk hiv hc,
   serialize_deserialize e kk ivv cc hbytes hacc⟩

/-- C2 witness: both codec directions evaluated on the concrete envelope with
a 1-byte wrapped key, the all-zero 16-byte iv and a 1-byte ciphertext. -/
theorem c2_codec_round_trip_witness :
    deserializeEnvelope (serializeEnvelope [7] (List.replicate 16 0) [1]) =
        .ok ([7], List.replicate 16 0, [1]) ∧
      serializeEnvelope [7] (List.replicate 16 0) [1] =
        [0, 0, 0, 1, 7, 0, 0, 0, 0, 0, 0, 0, 0, 0, 0, 0, 0, 0, 0, 0, 0, 1] :=
  c2_codec_round_trip [7] (List.replicate 16 0) [1]
    [0, 0, 0, 1, 7, 0, 0, 0, 0, 0, 0, 0, 0, 0, 0, 0, 0, 0, 0, 0, 0, 1]
    [7] (List.replicate 16 0) [1]
    (by decide) (by decide) (by decide) (by decide) (by decide)

/-- C3: an envelope of 19 bytes or fewer, or one whose declared wrapped-key
length leaves fewer than that length plus 16 bytes after the length field,
or one whose ciphertext region is empty, is rejected as malformed, and the
decryptor never reaches key unwrapping: its outcome and trace are the
deserialization error and the single input read, for every possible unwrap
function. -/
theorem c3_malformed_rejection {K : Type} (loadPriv : String → Except DecErr K)
    (D : Bytes → Bytes → Bytes) (pem : String) (priv : K) (data : Bytes)
    (inputPath outputPath outputParent : String)
    (hpem : pem ≠ "") (hload : loadPriv pem = .ok priv)
    (h : data.length < 20 ∨
      data.length - 4 < fromBytesBE (data.take 4) + 16 ∨
      data.length = 4 + fromBytesBE (data.take 4) + 16) :
    deserializeEnvelope data = .error .malformedEnvelope ∧
      ∀ unwrap : K → Bytes → Except DecErr Bytes,
        decryptMain loadPriv unwrap D ⟨some pem, true, data⟩ inputPath outputPath
            outputParent =
          (.error .malformedEnvelope, [FsOp.readBytes inputPath]) := by
  have hdes : deserializeEnvelope data = .error .malformedEnvelope := by
    by_cases h20 : data.length < 4 + 16
    · unfold deserializeEnvelope; rw [if_pos h20]
    · unfold deserializeEnvelope
      rw [if_neg h20]
      rw [if_pos]
      rcases h with h1 | h2 | h3
      · omega
      · rcases Nat.lt_or_ge (data.length - 4) (fromBytesBE (data.take 4)) with hlt | hge
        · left; rw [List.length_take, List.length_drop]; omega
        · right; left; rw [List.length_take, List.length_drop]; omega
      · right; right; rw [List.length_drop]; omega
  refine ⟨hdes, fun unwrap => ?_⟩
  simp [decryptMain, load_private_key_from_env, hpem, hload, hdes]

/-- C3 witness: a 10-byte envelope is rejected as malformed and the decryptor
run stops with the framing error after the single input read. -/
theorem c3_malformed_rejection_witness :
    deserializeEnvelope (List.replicate 10 0) = .error .malformedEnvelope ∧
      decryptMain (fun _ => Except.ok 0) (fun _ _ => Except.ok []) (fun _ b => b)
          ⟨some "k", true, List.replicate 10 0⟩ "i" "o" "p" =
        (.error .malformedEnvelope, [FsOp.readBytes "i"]) :=
  ⟨(c3_malformed_rejection (fun _ => Except.ok 0) (fun _ b => b) "k" 0
      (List.replicate 10 0) "i" "o" "p" (by decide) rfl (Or.inl (by decide))).1,
   (c3_malformed_rejection (fun _ => Except.ok 0) (fun _ b => b) "k" 0
      (List.replicate 10 0) "i" "o" "p" (by decide) rfl (Or.inl (by decide))).2
     (fun _ _ => Except.ok [])⟩

/-- C4: symmetric encryption pads the plaintext with exactly
`p = 16 - len % 16` bytes each of value `p` (a full extra block when the
length is already a multiple of 16), and the ciphertext has the length of
the padded plaintext, `len + p`. -/
theorem c4_padding_and_length (E : Bytes → Bytes → Bytes) (P key iv : Bytes)
    (hiv : iv.length = 16) (hE : ∀ b, b.length = 16 → (E key b).length = 16) :
    pkcs7Pad P = P ++ List.replicate (16 - P.length % 16) (16 - P.length % 16) ∧
      (P.length % 16 = 0 → 16 - P.length % 16 = 16) ∧
      (encrypt_aes_cbc E P key iv).length = P.length + (16 - P.length % 16) := by
  refine ⟨rfl, fun h => by omega, ?_⟩
  rw [length_encrypt_aes_cbc E P key iv hiv hE, length_pkcs7Pad]

/-- C4 witness: a 3-byte plaintext is padded with 13 bytes of value 13 and
its ciphertext has length 16. -/
theorem c4_padding_and_length_witness :
    pkcs7Pad [1, 2, 3] = [1, 2, 3] ++ List.replicate 13 13 ∧
      (encrypt_aes_cbc (fun _ b => b) [1, 2, 3] [] (List.replicate 16 0)).length =
        3 + 13 :=
  ⟨(c4_padding_and_length (fun _ b => b) [1, 2, 3] [] (List.replicate 16 0)
      (by decide) (fun _ h => h)).1,
   (c4_padding_and_length (fun _ b => b) [1, 2, 3] [] (List.replicate 16 0)
      (by decide) (fun _ h => h)).2.2⟩

/-- C5: for every decrypted padded byte string whose length is a nonzero
multiple of 16 and whose final byte is `p`, padding removal returns the
string without its last `p` bytes exactly when `1 ≤ p ≤ 16` and the last `p`
bytes all equal `p`; in every other case it fails with the padding error. -/
theorem c5_unpad_characterization (d : Bytes) (p : Nat)
    (hlen : d.length % 16 = 0) (hg : d.getLast? = some p) :
    (pkcs7Unpad d = .ok (d.take (d.length - p)) ↔
      1 ≤ p ∧ p ≤ 16 ∧ d.drop (d.length - p) = List.replicate p p) ∧
      (¬ (1 ≤ p ∧ p ≤ 16 ∧ d.drop (d.length - p) = List.replicate p p) →
        pkcs7Unpad d = .error .paddingError) := by
  rw [pkcs7Unpad_eq d p hg]
  constructor
  · constructor
    · intro h
      by_cases hcond : d.length % 16 = 0 ∧ 1 ≤ p ∧ p ≤ 16 ∧
          d.drop (d.length - p) = List.replicate p p
      · exact ⟨hcond.2.1, hcond.2.2.1, hcond.2.2.2⟩
      · rw [if_neg hcond] at h; exact absurd h (by simp)
    · intro h
      rw [if_pos ⟨hlen, h.1, h.2.1, h.2.2⟩]
  · intro h
    rw [if_neg]
    intro hcond
    exact h ⟨hcond.2.1, hcond.2.2.1, hcond.2.2.2⟩

/-- C5 witness: a full block of sixteen 16-valued bytes is valid padding and
unpads to the empty plaintext. -/
theorem c5_unpad_characterization_witness :
    pkcs7Unpad (List.replicate 16 16) =
      .ok ((List.replicate 16 16).take ((List.replicate 16 16).length - 16)) :=
  ((c5_unpad_characterization (List.replicate 16 16) 16 (by decide)
      (by decide)).1).mpr (by decide)

/-- C6 counterexample: with a 15-byte iv argument the inline serialization of
`encrypt_submission.py` does not fail — it emits an envelope byte string
(computed here in full), refuting the claim that serialization fails with a
`MalformedEnvelope` error whenever the iv is not exactly 16 bytes. -/
theorem c6_iv_validation_counterexample :
    (List.replicate 15 0 : Bytes).length ≠ 16 ∧
      serializeEnvelope [1] (List.replicate 15 0) [2] =
        [0, 0, 0, 1, 1, 0, 0, 0, 0, 0, 0, 0, 0, 0, 0, 0, 0, 0, 0, 0, 2] := by
  decide

/-- C6 amended: the serialization performs no iv-length validation and cannot
fail: for every wrapped key, iv and ciphertext it emits the 4-byte big-endian
key length followed by the three fields verbatim, so the emitted bytes carry
the iv argument unchanged after the key region, and the total length is
4 + len(key) + len(iv) + len(ciphertext).  In the encryptor's actual flow
the iv is always the 16 bytes drawn from `os.urandom(16)`, so emitted
envelopes always carry a 16-byte iv field. -/
theorem c6_iv_validation_amended (k iv c : Bytes) :
    serializeEnvelope k iv c = toBytes4BE k.length ++ k ++ iv ++ c ∧
      (serializeEnvelope k iv c).drop (4 + k.length) = iv ++ c ∧
      (serializeEnvelope k iv c).length = 4 + k.length + iv.length + c.length := by
  refine ⟨rfl, ?_, length_serializeEnvelope k iv c⟩
  rw [serializeEnvelope_assoc, ← List.drop_drop,
    List.drop_left' (length_toBytes4BE k.length), List.drop_left]

/-- C7 counterexample: a successful concrete run of the encryptor writes its
envelope output while its trace contains no directory creation at all, so
the claim that every output-file write — including the encryptor's — first
ensures the parent directory exists fails. -/
theorem c7_mkdir_before_write_counterexample :
    ((encryptMain (fun _ => Except.ok 0) (fun _ k => k) (fun _ b => b)
        ⟨true, true, [1], [2], List.replicate 32 0, List.replicate 16 0⟩
        "pred" "pub" "out").2.filter FsOp.isWrite ≠ [] ∧
      ((encryptMain (fun _ => Except.ok 0) (fun _ k => k) (fun _ b => b)
        ⟨true, true, [1], [2], List.replicate 32 0, List.replicate 16 0⟩
        "pred" "pub" "out").2.filter FsOp.isMkdir = []) ∧
      parentEnsured "out" "parent"
        ((encryptMain (fun _ => Except.ok 0) (fun _ k => k) (fun _ b => b)
          ⟨true, true, [1], [2], List.replicate 32 0, List.replicate 16 0⟩
          "pred" "pub" "out").2) false = false) := by
  decide

/-- C7 amended: only the decryptor ensures the output parent directory before
writing — every write in any decryptor trace is preceded by creating the
output parent — while the encryptor opens its output path directly: its
trace never contains a directory creation. -/
theorem c7_mkdir_before_write_amended {K K' : Type}
    (loadPriv : String → Except DecErr K)
    (unwrap : K → Bytes → Except DecErr Bytes) (D : Bytes → Bytes → Bytes)
    (env : DecryptEnv) (ip op parent : String)
    (loadPub : Bytes → Except DecErr K') (wrap : K' → Bytes → Bytes)
    (E : Bytes → Bytes → Bytes) (env' : EncryptEnv) (pp kp op' : String) :
    parentEnsured op parent
        ((decryptMain loadPriv unwrap D env ip op parent).2) false = true ∧
      (encryptMain loadPub wrap E env' pp kp op').2.filter FsOp.isMkdir = [] := by
  constructor
  · unfold decryptMain
    split
    · rfl
    split
    · rfl
    split
    · rfl
    split
    · rfl
    split
    · rfl
    · simp [parentEnsured]
  · unfold encryptMain
    split
    · rfl
    split
    · rfl
    split
    · rfl
    · simp [FsOp.isMkdir]

/-- C8: when the `SUBMISSION_PRIVATE_KEY` environment variable is unset or
empty and the input file exists, the decryptor fails with the fatal
configuration error and its trace is empty — no envelope bytes are ever
read, regardless of the key loader, unwrap function and cipher. -/
theorem c8_env_var_fatal {K : Type} (loadPriv : String → Except DecErr K)
    (unwrap : K → Bytes → Except DecErr Bytes) (D : Bytes → Bytes → Bytes)
    (env : DecryptEnv) (inputPath outputPath outputParent : String)
    (hvar : env.envVar = none ∨ env.envVar = some "")
    (hex : env.inputExists = true) :
    decryptMain loadPriv unwrap D env inputPath outputPath outputParent =
      (.error .configError, []) := by
  rcases env with ⟨v, ex, data⟩
  simp only at hvar hex
  subst hex
  rcases hvar with h | h <;> subst h <;>
    simp [decryptMain, load_private_key_from_env]

/-- C8 witness: the decryptor run with the variable absent and an existing
input file is exactly the configuration error with an empty trace. -/
theorem c8_env_var_fatal_witness :
    decryptMain (fun _ => Except.ok 0) (fun _ _ => Except.ok []) (fun _ b => b)
        ⟨none, true, []⟩ "i" "o" "p" = (.error .configError, []) :=
  c8_env_var_fatal (fun _ => Except.ok 0) (fun _ _ => Except.ok [])
    (fun _ b => b) ⟨none, true, []⟩ "i" "o" "p" (Or.inl rfl) rfl

/-- C9: whatever the decryptor run's inputs, if any step fails the trace
contains no file write at all, and on success the trace contains exactly one
write, to the output path, performed after every step has succeeded. -/
theorem c9_write_only_on_success {K : Type} (loadPriv : String → Except DecErr K)
    (unwrap : K → Bytes → Except DecErr Bytes) (D : Bytes → Bytes → Bytes)
    (env : DecryptEnv) (inputPath outputPath outputParent : String) :
    ∀ res tr,
      decryptMain loadPriv unwrap D env inputPath outputPath outputParent =
          (res, tr) →
        (res ≠ .ok () → tr.filter FsOp.isWrite = []) ∧
        (res = .ok () →
          ∃ d, tr.filter FsOp.isWrite = [FsOp.writeBytes outputPath d]) := by
  intro res tr h
  unfold decryptMain at h
  split at h
  · rw [Prod.mk.injEq] at h
    obtain ⟨hr, ht⟩ := h; subst hr; subst ht
    exact ⟨fun _ => rfl, fun hok => absurd hok (by simp)⟩
  split at h
  · rw [Prod.mk.injEq] at h
    obtain ⟨hr, ht⟩ := h; subst hr; subst ht
    exact ⟨fun _ => rfl, fun hok => absurd hok (by simp)⟩
  split at h
  · rw [Prod.mk.injEq] at h
    obtain ⟨hr, ht⟩ := h; subst hr; subst ht
    exact ⟨fun _ => rfl, fun hok => absurd hok (by simp)⟩
  split at h
  · rw [Prod.mk.injEq] at h
    obtain ⟨hr, ht⟩ := h; subst hr; subst ht
    exact ⟨fun _ => rfl, fun hok => absurd hok (by simp)⟩
  split at h
  · rw [Prod.mk.injEq] at h
    obtain ⟨hr, ht⟩ := h; subst hr; subst ht
    exact ⟨fun _ => rfl, fun hok => absurd hok (by simp)⟩
  · rw [Prod.mk.injEq] at h
    obtain ⟨hr, ht⟩ := h; subst hr; subst ht
    exact ⟨fun hne => absurd rfl hne, fun _ => ⟨_, rfl⟩⟩

/-- C9 witness: a fully successful concrete decryptor run ends with exactly
one write, to the output path. -/
theorem c9_write_only_on_success_witness :
    ∃ d, [FsOp.readBytes "i", FsOp.mkdirParents "p",
          FsOp.writeBytes "o" [], FsOp.printLine "o"].filter FsOp.isWrite =
        [FsOp.writeBytes "o" d] :=
  (c9_write_only_on_success (fun _ => Except.ok 0)
      (fun _ _ => Except.ok (List.replicate 32 0)) (fun _ b => b)
      ⟨some "k", true,
        serializeEnvelope [7] (List.replicate 16 0) (List.replicate 16 16)⟩
      "i" "o" "p" (.ok ())
      [FsOp.readBytes "i", FsOp.mkdirParents "p",
       FsOp.writeBytes "o" [], FsOp.printLine "o"]
      (by decide)).2 rfl

/-- C10: the key generator's standard output is identical across any two
runs — it depends only on the two fixed paths, never on the generated key
bytes — and the only file writes are the private PEM to the private-key path
and the public PEM to the public-key path, so the private key's bytes reach
no destination other than the private-key file. -/
theorem c10_keygen_no_private_leak (p₁ q₁ p₂ q₂ : Bytes) :
    (generateKeysMain p₁ q₁).filter FsOp.isPrint =
        (generateKeysMain p₂ q₂).filter FsOp.isPrint ∧
      (generateKeysMain p₁ q₁).filter FsOp.isWrite =
        [FsOp.writeBytes privateKeyPath p₁, FsOp.writeBytes publicKeyPath q₁] :=
  ⟨rfl, rfl⟩

end GnnChallenge
